import Mathlib

/-!
# Multithreaded Web Crawler: a verification development

Shallow embedding of `Multithreaded Web Crawler.cpp`.

* `std::string` is a Lean `String`, read as its list of characters.  The only
  character operations the program performs are comparison and `::tolower`
  (C locale: `'A'..'Z'` are shifted by 32, everything else is unchanged), and the
  only characters the program singles out (`h t p s : /`) are ASCII.
* `std::queue<CrawlTask>` is a list whose head is the front of the queue.
* `std::unordered_set<std::string>` is a list that is only changed through
  `visited_insert`, which mirrors `insert(x).second`.
* `int` values are `Int`; the one counter that can wrap (`std::atomic<int>`
  incremented with `++`) wraps modulo `2^32` explicitly.
* The HTTP transfer (libcurl) and the HTML parser (gumbo) are outside the
  program.  A fetch is represented by what the worker observes of it:
  `none` when `body.empty()`, and `some links` when the body is not empty and
  `extract_links(body)` returned `links`.
-/

namespace Crawler

/-! ## Data model -/

/-- The struct `CrawlTask` (lines 17-20). -/
structure CrawlTask where
  url : String
  depth : Int
  deriving DecidableEq, Repr

/-- The private members `q_` and `finished_` of `SafeQueue` (lines 48-51); the mutex and
the condition variable have no state of their own in a model where each member function
runs atomically. -/
structure SafeQueue where
  q_ : List CrawlTask
  finished_ : Bool
  deriving DecidableEq, Repr

namespace SafeQueue

/-- The queue as `main` declares it at line 110: no task, `finished_ = false`. -/
def empty : SafeQueue := ⟨[], false⟩

/-- Member `push` (lines 25-29): `q_.push(t)`. -/
def push (s : SafeQueue) (t : CrawlTask) : SafeQueue :=
  { s with q_ := s.q_ ++ [t] }

/-- Member `pop` (lines 30-37).  `none`: the predicate of `cv_.wait`
(`!q_.empty() || finished_`) is false, the caller stays blocked.
`some (none, s)`: the call returns `false` and leaves `out` alone.
`some (some t, s')`: the call returns `true` with `out = t`. -/
def pop (s : SafeQueue) : Option (Option CrawlTask × SafeQueue) :=
  if !(!s.q_.isEmpty || s.finished_) then none
  else
    match s.q_ with
    | [] => some (none, s)
    | t :: rest => some (some t, { s with q_ := rest })

/-- Member `notify_finish` (lines 38-42): `finished_ = true`. -/
def notify_finish (s : SafeQueue) : SafeQueue :=
  { s with finished_ := true }

/-- Member `size` (lines 43-46). -/
def size (s : SafeQueue) : Nat := s.q_.length

/-- Pushes the tasks of `ts` one after the other, first to last. -/
def push_all (s : SafeQueue) (ts : List CrawlTask) : SafeQueue :=
  ts.foldl push s

/-- Calls `pop` `n` times in a row.  The result is `none` as soon as one of the calls
blocks or returns `false`; otherwise it is the list of the tasks returned, in the order of
the calls, together with the queue left behind. -/
def pop_n : Nat → SafeQueue → Option (List CrawlTask × SafeQueue)
  | 0, s => some ([], s)
  | n + 1, s =>
    match s.pop with
    | some (some t, s') =>
      match pop_n n s' with
      | some (ts, s'') => some (t :: ts, s'')
      | none => none
    | _ => none

end SafeQueue

/-! ## URL helpers -/

/-- The function `::tolower` in the C locale. -/
def tolower (c : Char) : Char :=
  if 65 ≤ c.toNat ∧ c.toNat ≤ 90 then Char.ofNat (c.toNat + 32) else c

/-- The `std::transform(norm.begin(), norm.end(), norm.begin(), ::tolower)` of line 151. -/
def normalize (l : String) : String := ⟨l.data.map tolower⟩

/-- Matches the literal `lit` (given in lower case) at the start of `s` under
`std::regex::icase`; returns what follows the match. -/
def match_lit : List Char → List Char → Option (List Char)
  | [], s => some s
  | _ :: _, [] => none
  | p :: ps, c :: cs => if tolower c = p then match_lit ps cs else none

/-- The sub-expression `://([^/]+)`: after the colon and the two slashes, the longest
run of characters other than a slash, which must not be empty, is group 1. -/
def match_host (s : List Char) : Option (List Char) :=
  match match_lit [':', '/', '/'] s with
  | none => none
  | some r =>
    match r.takeWhile (fun c => c != '/') with
    | [] => none
    | h => some h

/-- An attempt to match `https?://([^/]+)` (case-insensitively) at the start of `s`.
The optional `s` is greedy; when it is taken and the rest fails, the matcher backtracks to
the branch without it. -/
def match_here (s : List Char) : Option (List Char) :=
  match match_lit ['h', 't', 't', 'p'] s with
  | none => none
  | some r =>
    match (match match_lit ['s'] r with
           | some r' => match_host r'
           | none => none) with
    | some h => some h
    | none => match_host r

/-- The call `std::regex_search(url, m, re)` followed by `m[1]`: the first position at
which the expression matches decides. -/
def search_domain : List Char → Option (List Char)
  | [] => none
  | c :: cs =>
    match match_here (c :: cs) with
    | some h => some h
    | none => search_domain cs

/-- The function `get_domain` (lines 87-92). -/
def get_domain (url : String) : String :=
  match search_domain url.data with
  | some h => ⟨h⟩
  | none => ""

/-- The function `same_domain` (lines 93-95). -/
def same_domain (base other : String) : Bool :=
  get_domain base == get_domain other

/-- The test `l.rfind("http", 0) != 0` of line 147 is false exactly when `l` begins with
the four characters `http`. -/
def starts_with_http (l : String) : Bool :=
  ['h', 't', 't', 'p'].isPrefixOf l.data

/-! ## The crawl: `main` and its workers -/

/-- What `main` reads from standard input (lines 98-105). -/
structure Config where
  start_url : String
  threads : Int
  max_depth : Int
  max_pages : Int
  deriving DecidableEq, Repr

/-- What the outside world hands to a worker at the two places where it calls a library:
`curl_ok` is whether `curl_easy_init()` returns a handle (line 120), `page` is what a
fetch gives (lines 129-144): `none` for an empty body, `some links` for a non-empty
body from which `extract_links` returns `links`. -/
structure Env where
  curl_ok : Bool
  page : Option (List String)
  deriving DecidableEq, Repr

/-- Where a worker thread stands in the lambda of lines 119-164. -/
inductive Worker where
  /-- Line 120, before `curl_easy_init()`. -/
  | atInit
  /-- Line 123, calling `queue.pop(task)`. -/
  | atPop
  /-- Line 124, holding the popped task, before the budget test. -/
  | atCheck (task : CrawlTask)
  /-- Lines 126-138, the fetch. -/
  | atFetch (task : CrawlTask)
  /-- Line 141, before `pages_crawled++`; the links are those of the fetched body. -/
  | atIncr (task : CrawlTask) (links : List String)
  /-- Lines 146-158, the loop over the links still to be looked at. -/
  | atLinks (task : CrawlTask) (links : List String)
  /-- The lambda has returned. -/
  | stopped
  deriving DecidableEq, Repr

/-- The content of `results.json` (lines 174-181). -/
structure Result where
  start : String
  count : Int
  urls : List String
  deriving DecidableEq, Repr

/-- Where `main` stands once the workers are spawned: in the joins of line 168, or past
them with `notify_finish` called and the result written. -/
inductive MainState where
  | joining
  | done (r : Result)
  deriving DecidableEq, Repr

/-- The variables shared by `main` and the workers.  `pushed` is a history variable: it
records every argument of `queue.push`, in the order of the calls. -/
structure State where
  queue : SafeQueue
  visited : List String
  pages_crawled : Int
  workers : List Worker
  main : MainState
  pushed : List CrawlTask
  deriving DecidableEq, Repr

/-- The call `visited.insert(x)`: the set afterwards and the `.second` of the result. -/
def visited_insert (v : List String) (x : String) : List String × Bool :=
  if x ∈ v then (v, false) else (x :: v, true)

/-- The operator `++` on `std::atomic<int>`: two's complement, 32 bits. -/
def incr32 (n : Int) : Int := (n + 1 + 2 ^ 31) % 2 ^ 32 - 2 ^ 31

/-- The call `queue.push(t)`, recorded in the history. -/
def State.push (s : State) (t : CrawlTask) : State :=
  { s with queue := s.queue.push t, pushed := s.pushed ++ [t] }

/-- One turn of the loop of lines 146-158 for the link `l`, found on a page at depth
`depth`. -/
def admit_link (cfg : Config) (depth : Int) (s : State) (l : String) : State :=
  if !starts_with_http l then s
  else if !same_domain cfg.start_url l then s
  else
    match visited_insert s.visited (normalize l) with
    | (v, true) => State.push { s with visited := v } ⟨l, depth + 1⟩
    | (v, false) => { s with visited := v }

/-- One atomic step of a worker standing at `w`.  `none`: the worker cannot move (it is
blocked in `pop`, or it has returned). -/
def wstep (cfg : Config) (env : Env) (w : Worker) (s : State) : Option (Worker × State) :=
  match w with
  | .atInit => if env.curl_ok then some (.atPop, s) else some (.stopped, s)
  | .atPop =>
    match s.queue.pop with
    | none => none
    | some (none, q) => some (.stopped, { s with queue := q })
    | some (some t, q) => some (.atCheck t, { s with queue := q })
  | .atCheck t =>
    if 0 < cfg.max_pages ∧ cfg.max_pages ≤ s.pages_crawled then some (.stopped, s)
    else some (.atFetch t, s)
  | .atFetch t =>
    match env.page with
    | none => some (.atPop, s)
    | some links => some (.atIncr t links, s)
  | .atIncr t links =>
    if t.depth < cfg.max_depth then
      some (.atLinks t links, { s with pages_crawled := incr32 s.pages_crawled })
    else some (.atPop, { s with pages_crawled := incr32 s.pages_crawled })
  | .atLinks _ [] => some (.atPop, s)
  | .atLinks t (l :: rest) => some (.atLinks t rest, admit_link cfg t.depth s l)
  | .stopped => none

/-- What can happen next: worker number `i` takes its next step, or `main` does. -/
inductive Event where
  | worker (i : Nat) (env : Env)
  | main
  deriving DecidableEq, Repr

/-- The state when the workers have just been spawned: lines 110-117 and 166-167. -/
def init (cfg : Config) : State :=
  State.push
    { queue := SafeQueue.empty, visited := (visited_insert [] cfg.start_url).1,
      pages_crawled := 0, workers := List.replicate cfg.threads.toNat Worker.atInit,
      main := MainState.joining, pushed := [] }
    ⟨cfg.start_url, 0⟩

/-- One step of the whole program.  An event that is not enabled leaves the state as it
is.  `main` gets past its joins only when every worker has returned; it then calls
`notify_finish` and writes the result (lines 168-181). -/
def step (cfg : Config) (s : State) : Event → State
  | .worker i env =>
    match s.workers.get? i with
    | none => s
    | some w =>
      match wstep cfg env w s with
      | none => s
      | some (w', s') => { s' with workers := s'.workers.set i w' }
  | .main =>
    match s.main with
    | .done _ => s
    | .joining =>
      if s.workers.all (fun w => w == Worker.stopped) then
        { s with queue := s.queue.notify_finish,
                 main := MainState.done ⟨cfg.start_url, s.pages_crawled, s.visited⟩ }
      else s

/-- The state after the events of `evs`, from the start. -/
def exec (cfg : Config) (evs : List Event) : State :=
  evs.foldl (step cfg) (init cfg)

/-- Whether a worker has passed the budget test of line 124 with its current task and
has not yet reached the end of `pages_crawled++` (line 141). -/
def Worker.in_flight : Worker → Bool
  | .atFetch _ => true
  | .atIncr _ _ => true
  | _ => false

/-- What the depth guard of line 143 and the seeding give for the task a worker holds:
its depth is not negative, and it is below `max_depth` inside the loop over the links. -/
def Worker.depth_ok (max_depth : Int) : Worker → Prop
  | .atCheck t => 0 ≤ t.depth
  | .atFetch t => 0 ≤ t.depth
  | .atIncr t _ => 0 ≤ t.depth
  | .atLinks t _ => 0 ≤ t.depth ∧ t.depth < max_depth
  | _ => True

/-- The part of the depth invariant that speaks of the queue and of the history of
pushes. -/
def depth_inv (cfg : Config) (s : State) : Prop :=
  (∀ t ∈ s.pushed, 0 ≤ t.depth ∧ t.depth ≤ cfg.max_depth) ∧
  (∀ t ∈ s.queue.q_, 0 ≤ t.depth) ∧
  (cfg.max_depth = 0 → s.pushed = [⟨cfg.start_url, 0⟩])

/-- The budget invariant: the counter is a 32-bit value, the number of workers is the
one configured, and the counter plus the workers that have passed the budget test without
having counted their page yet stays within the budget plus the number of workers less
one. -/
def budget_inv (cfg : Config) (s : State) : Prop :=
  (-2 ^ 31 ≤ s.pages_crawled ∧ s.pages_crawled < 2 ^ 31) ∧
  s.workers.length = cfg.threads.toNat ∧
  s.pages_crawled + (s.workers.countP Worker.in_flight : Int) ≤
    cfg.max_pages + (cfg.threads - 1)

/-- Whether a worker is inside its `while` loop: it has a curl handle and has not
returned. -/
def Worker.in_loop : Worker → Bool
  | .atInit => false
  | .stopped => false
  | _ => true

/-- The state of a crawl that cannot end any more: `finished_` is not set, `main` stands
in its joins, and at least one worker is inside its loop. -/
def never_ends (s : State) : Prop :=
  s.queue.finished_ = false ∧ s.main = MainState.joining ∧
  1 ≤ s.workers.countP Worker.in_loop

/-- The dedup invariant: the normal forms of the pushed URLs are pairwise different and
all of them are in the visited set. -/
def dedup_inv (s : State) : Prop :=
  (s.pushed.map (fun t => normalize t.url)).Nodup ∧
  ∀ t ∈ s.pushed, normalize t.url ∈ s.visited

/-! ## Concrete runs used below -/

/-- A task on the test domain. -/
def task_a : CrawlTask := ⟨"http://a.test/", 0⟩

/-- Worker 0 moves, and the outside world gives it `page` should it be fetching. -/
def w0 (page : Option (List String)) : Event := Event.worker 0 ⟨true, page⟩

/-- Scenario A of the specification: seed `http://a.test/`, depth 1, no page budget, one
worker. -/
def cfg_A : Config := ⟨"http://a.test/", 1, 1, 0⟩

/-- The run of scenario A: the seed page links to `a.test/x` and `b.test/y`, the page
`a.test/x` has no link. -/
def run_A : List Event :=
  [w0 none, w0 none, w0 none, w0 (some ["http://a.test/x", "http://b.test/y"]), w0 none,
   w0 none, w0 none, w0 none, w0 none, w0 none, w0 (some []), w0 none]

/-- A seed with a capital letter in it, depth 1, no page budget, one worker. -/
def cfg_upper : Config := ⟨"http://A.test/", 1, 1, 0⟩

/-- The seed page links to itself: the worker starts, pops the seed, passes the budget
test, fetches, counts the page and looks at the one link. -/
def run_self_loop : List Event :=
  [w0 none, w0 none, w0 none, w0 (some ["http://A.test/"]), w0 none, w0 none]

/-- Worker `i` moves, and the outside world gives it `page` should it be fetching. -/
def wk (i : Nat) (page : Option (List String)) : Event := Event.worker i ⟨true, page⟩

/-- Two workers, depth 1, a budget of two pages. -/
def cfg_race : Config := ⟨"http://a.test/", 2, 1, 2⟩

/-- Worker 0 crawls the seed, which links to `x` and `y`; then each worker pops one of
the two and passes the budget test before the other has counted its page. -/
def run_race : List Event :=
  [wk 0 none, wk 1 none, wk 0 none, wk 0 none,
   wk 0 (some ["http://a.test/x", "http://a.test/y"]), wk 0 none, wk 0 none, wk 0 none,
   wk 0 none, wk 0 none, wk 1 none, wk 0 none, wk 1 none, wk 0 (some []), wk 1 (some []),
   wk 0 none, wk 1 none]

/-- No worker and an empty seed. -/
def cfg_zero : Config := ⟨"", 0, 2, 50⟩

/-- Four workers and an empty seed. -/
def cfg_no_seed : Config := ⟨"", 4, 2, 50⟩

/-- A state in which one task is queued, the page counter is 1 and a single worker
holds the task `task_a` in front of the budget test. -/
def state_budget : State :=
  { queue := ⟨[⟨"http://a.test/x", 1⟩], false⟩, visited := ["http://a.test/x", "http://a.test/"],
    pages_crawled := 1, workers := [Worker.atCheck task_a], main := MainState.joining,
    pushed := [task_a, ⟨"http://a.test/x", 1⟩] }

/-! ## The queue -/

theorem SafeQueue.push_all_eq (ts : List CrawlTask) (s : SafeQueue) :
    s.push_all ts = ⟨s.q_ ++ ts, s.finished_⟩ := by
  induction ts generalizing s with
  | nil => simp [SafeQueue.push_all]
  | cons t ts ih =>
    have h := ih (s.push t)
    simp only [SafeQueue.push_all, List.foldl_cons] at h ⊢
    rw [h]
    simp [SafeQueue.push]

theorem SafeQueue.pop_cons (t : CrawlTask) (ts : List CrawlTask) (f : Bool) :
    SafeQueue.pop ⟨t :: ts, f⟩ = some (some t, ⟨ts, f⟩) := by
  simp [SafeQueue.pop]

theorem SafeQueue.pop_n_all (ts : List CrawlTask) (f : Bool) :
    SafeQueue.pop_n ts.length ⟨ts, f⟩ = some (ts, ⟨[], f⟩) := by
  induction ts with
  | nil => rfl
  | cons t ts ih =>
    simp only [List.length_cons, SafeQueue.pop_n, SafeQueue.pop_cons, ih]

/-- C3: pushing any list of tasks onto the empty, unfinished queue and then popping as
many times as tasks were pushed makes every pop succeed, returns the tasks in the order
they were pushed, and leaves the queue empty (and still unfinished). -/
theorem fifo_order (ts : List CrawlTask) :
    SafeQueue.pop_n ts.length (SafeQueue.empty.push_all ts) = some (ts, SafeQueue.empty) := by
  rw [SafeQueue.push_all_eq]
  simpa [SafeQueue.empty] using SafeQueue.pop_n_all ts false

/-- C2, as stated, fails: after `notify_finish` on a queue that holds one task, `pop`
returns `true` with that task instead of `false`. -/
theorem pop_after_finish_returns_task :
    (SafeQueue.notify_finish ⟨[task_a], false⟩).pop = some (some task_a, ⟨[], true⟩) := by
  decide

/-- C2, amended: once `finished_` is set, `pop` never blocks; it returns `false` exactly
when the queue is empty, and when the queue holds tasks it returns `true` with the task at
the front and removes it, the flag staying set. -/
theorem pop_after_finish (s : SafeQueue) (h : s.finished_ = true) :
    s.pop ≠ none ∧
    (s.pop = some (none, s) ↔ s.q_ = []) ∧
    (∀ t rest, s.q_ = t :: rest → s.pop = some (some t, ⟨rest, true⟩)) := by
  obtain ⟨q, f⟩ := s
  simp only at h
  subst h
  cases q with
  | nil => simp [SafeQueue.pop]
  | cons t rest => simp [SafeQueue.pop]

theorem pop_after_finish_witness :
    (SafeQueue.notify_finish ⟨[task_a], false⟩).finished_ = true ∧
    (SafeQueue.notify_finish ⟨[task_a], false⟩).pop ≠ none :=
  ⟨rfl, (pop_after_finish (SafeQueue.notify_finish ⟨[task_a], false⟩) rfl).1⟩

/-! ## Scope of the links -/

/-- C4, at the failing input: the seed `http://A.test/` and the link `http://a.test/x`
have domains that are equal once letter case is ignored, yet `same_domain` is false and the
worker pushes nothing for the link. -/
theorem domain_case_sensitive :
    normalize (get_domain "http://A.test/") = normalize (get_domain "http://a.test/x") ∧
    same_domain "http://A.test/" "http://a.test/x" = false ∧
    admit_link cfg_upper 0 (init cfg_upper) "http://a.test/x" = init cfg_upper := by
  decide

/-- C5, at the failing input: the link `httpx://b.test/?u=http://a.test` begins with
neither `http://` nor `https://`, yet it passes the test on its first four characters,
`get_domain` finds `a.test` further inside it, and the worker pushes it as a task. -/
theorem scheme_not_enforced :
    starts_with_http "httpx://b.test/?u=http://a.test" = true ∧
    get_domain "httpx://b.test/?u=http://a.test" = "a.test" ∧
    (admit_link cfg_A 0 (init cfg_A) "httpx://b.test/?u=http://a.test").pushed =
      [⟨"http://a.test/", 0⟩, ⟨"httpx://b.test/?u=http://a.test", 1⟩] := by
  decide

/-! ## Single runs -/

/-- C1, at the failing input: with the seed `http://A.test/` and a seed page that links to
itself, the seed URL is pushed a second time and the visited set holds two entries. -/
theorem seed_pushed_twice :
    (exec cfg_upper run_self_loop).pushed = [⟨"http://A.test/", 0⟩, ⟨"http://A.test/", 1⟩] ∧
    (exec cfg_upper run_self_loop).visited = ["http://a.test/", "http://A.test/"] := by
  decide

/-- C9, at the witness configuration: after both pages of scenario A are fetched the
queue is empty, `finished_` is still false, the only worker stands in `pop` and `main`
stands in its joins; no event changes this state any more, so the worker never stops. -/
theorem scenario_A_deadlock :
    (exec cfg_A run_A).queue = ⟨[], false⟩ ∧
    (exec cfg_A run_A).workers = [Worker.atPop] ∧
    (exec cfg_A run_A).main = MainState.joining ∧
    (exec cfg_A run_A).pages_crawled = 2 ∧
    ∀ ev, step cfg_A (exec cfg_A run_A) ev = exec cfg_A run_A := by
  have h : exec cfg_A run_A =
      { queue := ⟨[], false⟩, visited := ["http://a.test/x", "http://a.test/"],
        pages_crawled := 2, workers := [Worker.atPop], main := MainState.joining,
        pushed := [⟨"http://a.test/", 0⟩, ⟨"http://a.test/x", 1⟩] } := by
    decide
  rw [h]
  refine ⟨rfl, rfl, rfl, rfl, ?_⟩
  intro ev
  cases ev with
  | main => rfl
  | worker i env =>
    cases i with
    | zero => rfl
    | succ n => rfl

/-! ## The worker loop -/

/-- C8, as stated, fails: a worker that holds a popped task while the counter has reached
the budget of one page leaves its loop, although the queue is not empty and `finished_` is
not set. -/
theorem budget_break_stops_worker :
    wstep ⟨"http://a.test/", 1, 2, 1⟩ ⟨true, none⟩ (Worker.atCheck task_a) state_budget =
      some (Worker.stopped, state_budget) ∧
    state_budget.queue.pop ≠ some (none, state_budget.queue) := by
  decide

/-- C8, amended: a worker that holds a popped task while the counter has reached a
positive budget drops the task without fetching and leaves its loop (STOPPED), the shared
state unchanged.  A worker becomes STOPPED in exactly three ways: `curl_easy_init` gave no
handle, `pop` returned `false` (queue empty and `finished_` set), or this budget break. -/
theorem worker_stops_iff (cfg : Config) (env : Env) (w : Worker) (s s' : State) :
    wstep cfg env w s = some (Worker.stopped, s') ↔
      (w = Worker.atInit ∧ env.curl_ok = false ∧ s' = s) ∨
      (w = Worker.atPop ∧ s.queue.q_ = [] ∧ s.queue.finished_ = true ∧ s' = s) ∨
      (∃ t, w = Worker.atCheck t ∧ 0 < cfg.max_pages ∧ cfg.max_pages ≤ s.pages_crawled ∧
        s' = s) := by
  cases w with
  | atInit =>
    cases hc : env.curl_ok
    · have hw : wstep cfg env Worker.atInit s = some (Worker.stopped, s) := by
        simp [wstep, hc]
      rw [hw]
      constructor
      · intro h
        simp at h
        exact Or.inl ⟨rfl, rfl, h.symm⟩
      · rintro (⟨-, -, h⟩ | ⟨h, -⟩ | ⟨t, h, -⟩)
        · rw [h]
        · cases h
        · cases h
    · simp [wstep, hc]
  | atPop =>
    obtain ⟨⟨q, f⟩, v, pc, ws, m, ps⟩ := s
    cases q with
    | nil =>
      cases f
      · simp [wstep, SafeQueue.pop]
      · rw [show wstep cfg env Worker.atPop ⟨⟨[], true⟩, v, pc, ws, m, ps⟩ =
            some (Worker.stopped, ⟨⟨[], true⟩, v, pc, ws, m, ps⟩) from rfl]
        constructor
        · intro h
          simp at h
          exact Or.inr (Or.inl ⟨rfl, rfl, rfl, h.symm⟩)
        · rintro (⟨h, -⟩ | ⟨-, -, -, h⟩ | ⟨t, h, -⟩)
          · cases h
          · rw [h]
          · cases h
    | cons t rest => simp [wstep, SafeQueue.pop]
  | atCheck t =>
    by_cases hb : 0 < cfg.max_pages ∧ cfg.max_pages ≤ s.pages_crawled
    · have hw : wstep cfg env (Worker.atCheck t) s = some (Worker.stopped, s) := by
        simp [wstep, hb]
      rw [hw]
      constructor
      · intro h
        simp at h
        exact Or.inr (Or.inr ⟨t, rfl, hb.1, hb.2, h.symm⟩)
      · rintro (⟨h, -⟩ | ⟨h, -⟩ | ⟨t', -, -, -, h⟩)
        · cases h
        · cases h
        · rw [h]
    · have hw : wstep cfg env (Worker.atCheck t) s = some (Worker.atFetch t, s) := by
        simp [wstep, hb]
      rw [hw]
      constructor
      · intro h
        simp at h
      · rintro (⟨h, -⟩ | ⟨h, -⟩ | ⟨t', -, h1, h2, -⟩)
        · cases h
        · cases h
        · exact absurd ⟨h1, h2⟩ hb
  | atFetch t =>
    cases hp : env.page <;> simp [wstep, hp]
  | atIncr t links =>
    by_cases hd : t.depth < cfg.max_depth <;> simp [wstep, hd]
  | atLinks t links =>
    cases links <;> simp [wstep]
  | stopped => simp [wstep]

/-! ## Start-up -/

/-- C10, as stated, fails: with no worker and an empty seed the queue and the visited set
are seeded all the same, and `main` runs to the end and writes a result with count 0; with
four workers and an empty seed the queue is seeded and the four workers are spawned. -/
theorem no_validation_at_startup :
    (init cfg_zero).queue.q_ = [⟨"", 0⟩] ∧
    (exec cfg_zero [Event.main]).main = MainState.done ⟨"", 0, [""]⟩ ∧
    (init cfg_no_seed).queue.q_ = [⟨"", 0⟩] ∧
    (init cfg_no_seed).workers =
      [Worker.atInit, Worker.atInit, Worker.atInit, Worker.atInit] := by
  decide

/-- C10, amended: `main` validates nothing.  For every configuration, an empty seed or a
worker count of zero or less included, the seed task is pushed at depth 0, the seed is
put into the visited set, and as many workers are spawned as `threads` says (none when it
is zero or less); and with a worker count of zero or less `main` passes its joins at
once, calls `notify_finish` and writes a result with count 0 and the seed as only URL. -/
theorem startup_unconditional (cfg : Config) :
    (init cfg).queue = ⟨[⟨cfg.start_url, 0⟩], false⟩ ∧
    (init cfg).visited = [cfg.start_url] ∧
    (init cfg).workers = List.replicate cfg.threads.toNat Worker.atInit ∧
    (init cfg).main = MainState.joining ∧
    (cfg.threads ≤ 0 →
      (exec cfg [Event.main]).main = MainState.done ⟨cfg.start_url, 0, [cfg.start_url]⟩ ∧
      (exec cfg [Event.main]).queue = ⟨[⟨cfg.start_url, 0⟩], true⟩) := by
  refine ⟨rfl, rfl, rfl, rfl, ?_⟩
  intro h
  have h0 : cfg.threads.toNat = 0 := by omega
  simp [exec, step, init, State.push, h0, SafeQueue.push, SafeQueue.empty,
    SafeQueue.notify_finish, visited_insert]

theorem startup_unconditional_witness :
    cfg_zero.threads ≤ 0 ∧
    (exec cfg_zero [Event.main]).main = MainState.done ⟨cfg_zero.start_url, 0, [cfg_zero.start_url]⟩ :=
  ⟨by decide, ((startup_unconditional cfg_zero).2.2.2.2 (by decide)).1⟩

/-! ## Invariants of all runs -/

theorem exec_invariant (cfg : Config) (P : State → Prop) (h0 : P (init cfg))
    (hs : ∀ s ev, P s → P (step cfg s ev)) (evs : List Event) : P (exec cfg evs) := by
  have key : ∀ (l : List Event) (s : State), P s → P (l.foldl (step cfg) s) := by
    intro l
    induction l with
    | nil => intro s h; exact h
    | cons e l ih => intro s h; exact ih _ (hs s e h)
  exact key evs _ h0

theorem admit_link_frame (cfg : Config) (d : Int) (s : State) (l : String) :
    (admit_link cfg d s l).workers = s.workers ∧
    (admit_link cfg d s l).pages_crawled = s.pages_crawled ∧
    (admit_link cfg d s l).main = s.main := by
  unfold admit_link
  split
  · exact ⟨rfl, rfl, rfl⟩
  · split
    · exact ⟨rfl, rfl, rfl⟩
    · split <;> exact ⟨rfl, rfl, rfl⟩

theorem wstep_workers {cfg : Config} {env : Env} {w w' : Worker} {s s' : State}
    (h : wstep cfg env w s = some (w', s')) : s'.workers = s.workers := by
  cases w with
  | atInit =>
    simp only [wstep] at h
    split at h <;> (cases h; rfl)
  | atPop =>
    simp only [wstep] at h
    split at h
    · cases h
    · cases h; rfl
    · cases h; rfl
  | atCheck t =>
    simp only [wstep] at h
    split at h <;> (cases h; rfl)
  | atFetch t =>
    simp only [wstep] at h
    split at h <;> (cases h; rfl)
  | atIncr t links =>
    simp only [wstep] at h
    split at h <;> (cases h; rfl)
  | atLinks t links =>
    cases links with
    | nil => simp only [wstep] at h; cases h; rfl
    | cons l rest =>
      simp only [wstep] at h
      cases h
      exact (admit_link_frame cfg t.depth s l).1
  | stopped => simp [wstep] at h

theorem SafeQueue.pop_task {s q : SafeQueue} {t : CrawlTask}
    (h : s.pop = some (some t, q)) : s.q_ = t :: q.q_ := by
  obtain ⟨l, f⟩ := s
  cases l with
  | nil => cases f <;> simp [SafeQueue.pop] at h
  | cons a rest =>
    simp [SafeQueue.pop] at h
    obtain ⟨h1, h2⟩ := h
    subst h1
    subst h2
    rfl

theorem SafeQueue.pop_false {s q : SafeQueue} (h : s.pop = some (none, q)) : q = s := by
  obtain ⟨l, f⟩ := s
  cases l with
  | nil =>
    cases f
    · simp [SafeQueue.pop] at h
    · simp [SafeQueue.pop] at h
      exact h.symm
  | cons a rest => simp [SafeQueue.pop] at h

theorem admit_link_depth (cfg : Config) (d : Int) (s : State) (l : String)
    (hq : depth_inv cfg s) (h0 : 0 ≤ d) (h1 : d < cfg.max_depth) :
    depth_inv cfg (admit_link cfg d s l) := by
  unfold admit_link
  split
  · exact hq
  · split
    · exact hq
    · split
      · obtain ⟨hp, hqu, -⟩ := hq
        refine ⟨?_, ?_, ?_⟩
        · intro t ht
          simp only [State.push, List.mem_append, List.mem_singleton] at ht
          rcases ht with ht | ht
          · exact hp t ht
          · subst ht
            constructor <;> simp only <;> omega
        · intro t ht
          simp only [State.push, SafeQueue.push, List.mem_append, List.mem_singleton] at ht
          rcases ht with ht | ht
          · exact hqu t ht
          · subst ht
            simp only
            omega
        · intro hz
          omega
      · exact hq

theorem wstep_depth {cfg : Config} {env : Env} {w w' : Worker} {s s' : State}
    (h : wstep cfg env w s = some (w', s')) (hw : w.depth_ok cfg.max_depth)
    (hq : depth_inv cfg s) : w'.depth_ok cfg.max_depth ∧ depth_inv cfg s' := by
  cases w with
  | atInit =>
    simp only [wstep] at h
    split at h <;> (cases h; exact ⟨trivial, hq⟩)
  | atPop =>
    simp only [wstep] at h
    split at h
    · cases h
    · rename_i q hpop
      cases h
      rw [SafeQueue.pop_false hpop]
      exact ⟨trivial, hq⟩
    · rename_i t q hpop
      cases h
      have hl := SafeQueue.pop_task hpop
      obtain ⟨hp, hqu, hz⟩ := hq
      refine ⟨?_, hp, ?_, hz⟩
      · exact hqu t (by rw [hl]; exact List.mem_cons_self _ _)
      · intro x hx
        exact hqu x (by rw [hl]; exact List.mem_cons_of_mem _ hx)
  | atCheck t =>
    simp only [wstep] at h
    split at h
    · cases h; exact ⟨trivial, hq⟩
    · cases h; exact ⟨hw, hq⟩
  | atFetch t =>
    simp only [wstep] at h
    split at h
    · cases h; exact ⟨trivial, hq⟩
    · cases h; exact ⟨hw, hq⟩
  | atIncr t links =>
    simp only [wstep] at h
    split at h
    · rename_i hd
      cases h
      exact ⟨⟨hw, hd⟩, hq⟩
    · cases h; exact ⟨trivial, hq⟩
  | atLinks t links =>
    cases links with
    | nil => simp only [wstep] at h; cases h; exact ⟨trivial, hq⟩
    | cons l rest =>
      simp only [wstep] at h
      cases h
      exact ⟨hw, admit_link_depth cfg t.depth s l hq hw.1 hw.2⟩
  | stopped => simp [wstep] at h

theorem step_depth (cfg : Config) (s : State) (ev : Event)
    (h : depth_inv cfg s ∧ ∀ w ∈ s.workers, w.depth_ok cfg.max_depth) :
    depth_inv cfg (step cfg s ev) ∧
      ∀ w ∈ (step cfg s ev).workers, w.depth_ok cfg.max_depth := by
  obtain ⟨hq, hws⟩ := h
  cases ev with
  | main =>
    simp only [step]
    split
    · exact ⟨hq, hws⟩
    · split
      · exact ⟨hq, hws⟩
      · exact ⟨hq, hws⟩
  | worker i env =>
    simp only [step]
    split
    · exact ⟨hq, hws⟩
    · rename_i w hget
      split
      · exact ⟨hq, hws⟩
      · rename_i w' s' hstep
        have hmem : w ∈ s.workers := List.get?_mem hget
        obtain ⟨hw', hq'⟩ := wstep_depth hstep (hws w hmem) hq
        refine ⟨hq', ?_⟩
        intro x hx
        simp only [wstep_workers hstep] at hx
        rcases List.mem_or_eq_of_mem_set hx with hx | hx
        · exact hws x hx
        · rw [hx]; exact hw'

/-- C6: for every configuration with `max_depth ≥ 0` and every run (any number of
workers, any interleaving, any fetched pages), every task ever pushed onto the queue has
a depth of at most `max_depth`; and with `max_depth = 0` the seed is the only task ever
pushed. -/
theorem depth_bound (cfg : Config) (h : 0 ≤ cfg.max_depth) (evs : List Event) :
    (∀ t ∈ (exec cfg evs).pushed, t.depth ≤ cfg.max_depth) ∧
    (cfg.max_depth = 0 → (exec cfg evs).pushed = [⟨cfg.start_url, 0⟩]) := by
  have hinv := exec_invariant cfg
    (fun s => depth_inv cfg s ∧ ∀ w ∈ s.workers, w.depth_ok cfg.max_depth)
    (by
      refine ⟨⟨?_, ?_, ?_⟩, ?_⟩
      · intro t ht
        simp only [init, State.push, List.nil_append, List.mem_singleton] at ht
        subst ht
        exact ⟨le_refl _, h⟩
      · intro t ht
        simp only [init, State.push, SafeQueue.push, SafeQueue.empty, List.nil_append,
          List.mem_singleton] at ht
        subst ht
        exact le_refl _
      · intro _
        rfl
      · intro w hw
        simp only [init, State.push] at hw
        rw [List.eq_of_mem_replicate hw]
        trivial)
    (step_depth cfg) evs
  exact ⟨fun t ht => (hinv.1.1 t ht).2, hinv.1.2.2⟩

theorem depth_bound_witness :
    (0 : Int) ≤ cfg_A.max_depth ∧ ∀ t ∈ (exec cfg_A run_A).pushed, t.depth ≤ cfg_A.max_depth :=
  ⟨by decide, (depth_bound cfg_A (by decide) run_A).1⟩

theorem incr32_bounds (n : Int) (h : -2 ^ 31 ≤ n ∧ n < 2 ^ 31) :
    (-2 ^ 31 ≤ incr32 n ∧ incr32 n < 2 ^ 31) ∧ incr32 n ≤ n + 1 := by
  unfold incr32
  norm_num at h ⊢
  omega

theorem countP_set_worker (p : Worker → Bool) (ws : List Worker) (i : Nat) (w w' : Worker)
    (h : ws.get? i = some w) :
    ((ws.set i w').countP p : Int) + (if p w then 1 else 0) =
      (ws.countP p : Int) + (if p w' then 1 else 0) := by
  induction ws generalizing i with
  | nil => simp at h
  | cons a rest ih =>
    cases i with
    | zero =>
      simp only [List.get?_cons_zero, Option.some.injEq] at h
      subst h
      simp only [List.set_cons_zero, List.countP_cons]
      split <;> split <;> simp
    | succ n =>
      simp only [List.get?_cons_succ] at h
      have := ih n h
      simp only [List.set_cons_succ, List.countP_cons]
      push_cast
      omega

/-- What one worker step does to the counter: either the counter plus the flag of the
worker does not grow, or the worker has just passed the budget test (the counter is
unchanged and, if the budget is positive, below it). -/
theorem wstep_budget {cfg : Config} {env : Env} {w w' : Worker} {s s' : State}
    (h : wstep cfg env w s = some (w', s'))
    (hr : -2 ^ 31 ≤ s.pages_crawled ∧ s.pages_crawled < 2 ^ 31) :
    (-2 ^ 31 ≤ s'.pages_crawled ∧ s'.pages_crawled < 2 ^ 31) ∧
    (s'.pages_crawled + (if w'.in_flight then 1 else 0) ≤
        s.pages_crawled + (if w.in_flight then 1 else 0) ∨
      (s'.pages_crawled = s.pages_crawled ∧
        (0 < cfg.max_pages → s.pages_crawled < cfg.max_pages))) := by
  cases w with
  | atInit =>
    simp only [wstep] at h
    split at h <;> (cases h; exact ⟨hr, Or.inl (by simp [Worker.in_flight])⟩)
  | atPop =>
    simp only [wstep] at h
    split at h
    · cases h
    · cases h; exact ⟨hr, Or.inl (by simp [Worker.in_flight])⟩
    · cases h; exact ⟨hr, Or.inl (by simp [Worker.in_flight])⟩
  | atCheck t =>
    simp only [wstep] at h
    split at h
    · cases h; exact ⟨hr, Or.inl (by simp [Worker.in_flight])⟩
    · rename_i hb
      cases h
      refine ⟨hr, Or.inr ⟨rfl, ?_⟩⟩
      intro hp
      by_contra hc
      exact hb ⟨hp, not_lt.mp hc⟩
  | atFetch t =>
    simp only [wstep] at h
    split at h <;> (cases h; exact ⟨hr, Or.inl (by simp [Worker.in_flight])⟩)
  | atIncr t links =>
    have hi := incr32_bounds s.pages_crawled hr
    simp only [wstep] at h
    split at h <;>
      (cases h
       refine ⟨hi.1, Or.inl ?_⟩
       simp only [Worker.in_flight]
       simp
       exact hi.2)
  | atLinks t links =>
    cases links with
    | nil => simp only [wstep] at h; cases h; exact ⟨hr, Or.inl (by simp [Worker.in_flight])⟩
    | cons l rest =>
      simp only [wstep] at h
      cases h
      rw [(admit_link_frame cfg t.depth s l).2.1]
      exact ⟨hr, Or.inl (by simp [Worker.in_flight])⟩
  | stopped => simp [wstep] at h

theorem step_budget (cfg : Config) (hN : 1 ≤ cfg.threads) (hp : 0 < cfg.max_pages)
    (s : State) (ev : Event) (h : budget_inv cfg s) : budget_inv cfg (step cfg s ev) := by
  obtain ⟨hr, hlen, hb⟩ := h
  cases ev with
  | main =>
    simp only [step]
    split
    · exact ⟨hr, hlen, hb⟩
    · split
      · exact ⟨hr, hlen, hb⟩
      · exact ⟨hr, hlen, hb⟩
  | worker i env =>
    simp only [step]
    split
    · exact ⟨hr, hlen, hb⟩
    · rename_i w hget
      split
      · exact ⟨hr, hlen, hb⟩
      · rename_i w' s' hstep
        obtain ⟨hr', hcase⟩ := wstep_budget hstep hr
        have hws := wstep_workers hstep
        have hset := countP_set_worker Worker.in_flight s.workers i w w' hget
        have hle : ((s.workers.set i w').countP Worker.in_flight : Int) ≤
            (s.workers.set i w').length := by
          exact_mod_cast List.countP_le_length _
        simp only [List.length_set] at hle
        refine ⟨hr', ?_, ?_⟩
        · simp only [hws, List.length_set]
          exact hlen
        · simp only [hws]
          have hcast : ((cfg.threads.toNat : Nat) : Int) = cfg.threads :=
            Int.toNat_of_nonneg (by omega)
          have hlen2 : ((s.workers.length : Nat) : Int) = cfg.threads := by
            rw [hlen]; exact hcast
          rcases hcase with hc | ⟨hc1, hc2⟩
          · omega
          · have := hc2 hp
            omega

/-- C7: in every run of a configuration with at least one worker and a positive page
budget, whatever the interleaving of the workers (the budget test and the increment of
the counter being separate steps), the page counter never exceeds the budget plus the
number of workers less one. -/
theorem budget_bound (cfg : Config) (hN : 1 ≤ cfg.threads) (hp : 0 < cfg.max_pages)
    (evs : List Event) :
    (exec cfg evs).pages_crawled ≤ cfg.max_pages + (cfg.threads - 1) := by
  have hinv := exec_invariant cfg (budget_inv cfg)
    (by
      refine ⟨?_, ?_, ?_⟩
      · show (-2 ^ 31 : Int) ≤ 0 ∧ (0 : Int) < 2 ^ 31
        norm_num
      · simp [init, State.push]
      · have h0 : (List.replicate cfg.threads.toNat Worker.atInit).countP Worker.in_flight = 0 := by
          rw [List.countP_eq_zero]
          intro w hw
          rw [List.eq_of_mem_replicate hw]
          simp [Worker.in_flight]
        simp only [init, State.push, h0]
        simp
        omega)
    (step_budget cfg hN hp) evs
  obtain ⟨-, -, hb⟩ := hinv
  have : (0 : Int) ≤ ((exec cfg evs).workers.countP Worker.in_flight : Int) :=
    Int.natCast_nonneg _
  omega


theorem budget_bound_witness :
    (1 : Int) ≤ cfg_race.threads ∧ (0 : Int) < cfg_race.max_pages ∧
    (exec cfg_race run_race).pages_crawled = 3 ∧
    (exec cfg_race run_race).pages_crawled ≤ cfg_race.max_pages + (cfg_race.threads - 1) :=
  ⟨by decide, by decide, by decide, budget_bound cfg_race (by decide) (by decide) run_race⟩


/-! ## What holds next to the claims that fail -/

theorem admit_link_cases (cfg : Config) (d : Int) (s : State) (l : String) :
    admit_link cfg d s l = s ∨
    (starts_with_http l = true ∧ same_domain cfg.start_url l = true ∧
      normalize l ∉ s.visited ∧
      admit_link cfg d s l =
        State.push { s with visited := normalize l :: s.visited } ⟨l, d + 1⟩) := by
  unfold admit_link
  by_cases h1 : starts_with_http l = true
  · by_cases h2 : same_domain cfg.start_url l = true
    · by_cases h3 : normalize l ∈ s.visited
      · left
        simp [h1, h2, visited_insert, h3]
      · right
        refine ⟨h1, h2, h3, ?_⟩
        simp [h1, h2, visited_insert, h3]
    · left
      simp [h1, h2]
  · left
    simp [h1]

theorem wstep_pushed {cfg : Config} {env : Env} {w w' : Worker} {s s' : State}
    (h : wstep cfg env w s = some (w', s')) :
    (s'.pushed = s.pushed ∧ s'.visited = s.visited) ∨
    ∃ t l rest, w = Worker.atLinks t (l :: rest) ∧ s' = admit_link cfg t.depth s l := by
  cases w with
  | atInit =>
    simp only [wstep] at h
    split at h <;> (cases h; exact Or.inl ⟨rfl, rfl⟩)
  | atPop =>
    simp only [wstep] at h
    split at h
    · cases h
    · cases h; exact Or.inl ⟨rfl, rfl⟩
    · cases h; exact Or.inl ⟨rfl, rfl⟩
  | atCheck t =>
    simp only [wstep] at h
    split at h <;> (cases h; exact Or.inl ⟨rfl, rfl⟩)
  | atFetch t =>
    simp only [wstep] at h
    split at h <;> (cases h; exact Or.inl ⟨rfl, rfl⟩)
  | atIncr t links =>
    simp only [wstep] at h
    split at h <;> (cases h; exact Or.inl ⟨rfl, rfl⟩)
  | atLinks t links =>
    cases links with
    | nil => simp only [wstep] at h; cases h; exact Or.inl ⟨rfl, rfl⟩
    | cons l rest =>
      simp only [wstep] at h
      cases h
      exact Or.inr ⟨t, l, rest, rfl, rfl⟩
  | stopped => simp [wstep] at h

/-- An invariant that speaks of the history of pushes and of the visited set only holds
in every run as soon as it holds at the start and every `admit_link` keeps it. -/
theorem exec_pushed_invariant (cfg : Config) (P : List CrawlTask → List String → Prop)
    (h0 : P (init cfg).pushed (init cfg).visited)
    (ha : ∀ d s l, P s.pushed s.visited →
      P (admit_link cfg d s l).pushed (admit_link cfg d s l).visited)
    (evs : List Event) : P (exec cfg evs).pushed (exec cfg evs).visited := by
  refine exec_invariant cfg (fun s => P s.pushed s.visited) h0 ?_ evs
  intro s ev hP
  cases ev with
  | main =>
    simp only [step]
    split
    · exact hP
    · split
      · exact hP
      · exact hP
  | worker i env =>
    simp only [step]
    split
    · exact hP
    · split
      · exact hP
      · rename_i w' s' hstep
        show P s'.pushed s'.visited
        rcases wstep_pushed hstep with ⟨h1, h2⟩ | ⟨t, l, rest, -, h⟩
        · rw [h1, h2]; exact hP
        · rw [h]; exact ha _ _ _ hP

/-- The domain bound that does hold: every task ever pushed has exactly the domain string
of the seed, and every task other than the seed task begins with `http`. -/
theorem pushed_same_domain (cfg : Config) (evs : List Event) :
    ∀ t ∈ (exec cfg evs).pushed,
      get_domain t.url = get_domain cfg.start_url ∧
      (t = ⟨cfg.start_url, 0⟩ ∨ starts_with_http t.url = true) := by
  refine exec_pushed_invariant cfg
    (fun ps _ => ∀ t ∈ ps, get_domain t.url = get_domain cfg.start_url ∧
      (t = ⟨cfg.start_url, 0⟩ ∨ starts_with_http t.url = true)) ?_ ?_ evs
  · intro t ht
    simp only [init, State.push, List.nil_append, List.mem_singleton] at ht
    subst ht
    exact ⟨rfl, Or.inl rfl⟩
  · intro d s l hP t ht
    rcases admit_link_cases cfg d s l with h | ⟨h1, h2, -, h⟩
    · rw [h] at ht; exact hP t ht
    · rw [h] at ht
      simp only [State.push, List.mem_append, List.mem_singleton] at ht
      rcases ht with ht | ht
      · exact hP t ht
      · subst ht
        refine ⟨?_, Or.inr h1⟩
        simp only [same_domain, beq_iff_eq] at h2
        exact h2.symm

/-- The dedup invariant that does hold: when the seed is its own normal form (it has no
upper-case letter), no URL string is pushed twice in any run. -/
theorem dedup_normalized_seed (cfg : Config) (hseed : normalize cfg.start_url = cfg.start_url)
    (evs : List Event) : ((exec cfg evs).pushed.map CrawlTask.url).Nodup := by
  have hinv : dedup_inv (exec cfg evs) := by
    refine exec_pushed_invariant cfg
      (fun ps v => (ps.map (fun t => normalize t.url)).Nodup ∧
        ∀ t ∈ ps, normalize t.url ∈ v) ?_ ?_ evs
    · refine ⟨?_, ?_⟩
      · simp [init, State.push]
      · intro t ht
        simp only [init, State.push, List.nil_append, List.mem_singleton] at ht
        subst ht
        simp [init, State.push, visited_insert, hseed]
    · intro d s l hP
      obtain ⟨hnd, hvis⟩ := hP
      rcases admit_link_cases cfg d s l with h | ⟨-, -, h3, h⟩
      · rw [h]; exact ⟨hnd, hvis⟩
      · rw [h]
        refine ⟨?_, ?_⟩
        · simp only [State.push, List.map_append, List.map_cons, List.map_nil]
          rw [List.nodup_append]
          refine ⟨hnd, List.nodup_singleton _, ?_⟩
          intro x hx hx'
          simp only [List.mem_singleton] at hx'
          subst hx'
          obtain ⟨t, ht, hnorm⟩ := List.mem_map.mp hx
          exact h3 (hnorm ▸ hvis t ht)
        · intro t ht
          simp only [State.push, List.mem_append, List.mem_singleton] at ht
          rcases ht with ht | ht
          · exact List.mem_cons_of_mem _ (hvis t ht)
          · subst ht
            exact List.mem_cons_self _ _
  have h := hinv.1
  have hmap : (exec cfg evs).pushed.map (fun t => normalize t.url) =
      ((exec cfg evs).pushed.map CrawlTask.url).map normalize := by
    simp [List.map_map, Function.comp_def]
  rw [hmap] at h
  exact List.Nodup.of_map _ h


theorem admit_link_finished (cfg : Config) (d : Int) (s : State) (l : String) :
    (admit_link cfg d s l).queue.finished_ = s.queue.finished_ := by
  rcases admit_link_cases cfg d s l with h | ⟨-, -, -, h⟩ <;> rw [h]
  rfl

theorem wstep_in_loop {cfg : Config} {env : Env} {w w' : Worker} {s s' : State}
    (h : wstep cfg env w s = some (w', s')) (hp : cfg.max_pages ≤ 0)
    (hf : s.queue.finished_ = false) :
    s'.queue.finished_ = false ∧ s'.main = s.main ∧
    (w.in_loop = true → w'.in_loop = true) := by
  cases w with
  | atInit =>
    simp only [wstep] at h
    split at h <;> (cases h; exact ⟨hf, rfl, by simp [Worker.in_loop]⟩)
  | atPop =>
    simp only [wstep] at h
    split at h
    · cases h
    · rename_i q hpop
      have hq := SafeQueue.pop_false hpop
      subst hq
      obtain ⟨⟨l, f⟩, v, pc, ws, m, ps⟩ := s
      simp only at hf
      subst hf
      cases l <;> simp [SafeQueue.pop] at hpop
    · rename_i t q hpop
      cases h
      refine ⟨?_, rfl, by simp [Worker.in_loop]⟩
      obtain ⟨⟨l, f⟩, v, pc, ws, m, ps⟩ := s
      simp only at hf
      subst hf
      cases l with
      | nil => simp [SafeQueue.pop] at hpop
      | cons a rest =>
        simp [SafeQueue.pop] at hpop
        rw [← hpop.2]
  | atCheck t =>
    simp only [wstep] at h
    split at h
    · rename_i hb
      exact absurd hb.1 (not_lt.mpr hp)
    · cases h; exact ⟨hf, rfl, by simp [Worker.in_loop]⟩
  | atFetch t =>
    simp only [wstep] at h
    split at h <;> (cases h; exact ⟨hf, rfl, by simp [Worker.in_loop]⟩)
  | atIncr t links =>
    simp only [wstep] at h
    split at h <;> (cases h; exact ⟨hf, rfl, by simp [Worker.in_loop]⟩)
  | atLinks t links =>
    cases links with
    | nil => simp only [wstep] at h; cases h; exact ⟨hf, rfl, by simp [Worker.in_loop]⟩
    | cons l rest =>
      simp only [wstep] at h
      cases h
      exact ⟨by rw [admit_link_finished]; exact hf, (admit_link_frame cfg t.depth s l).2.2,
        by simp [Worker.in_loop]⟩
  | stopped => simp [wstep] at h

theorem all_stopped_not_in_loop (ws : List Worker)
    (h : ws.all (fun w => w == Worker.stopped) = true) : ws.countP Worker.in_loop = 0 := by
  rw [List.countP_eq_zero]
  intro w hw
  have := List.all_eq_true.mp h w hw
  simp only [beq_iff_eq] at this
  subst this
  simp [Worker.in_loop]

theorem step_never_ends (cfg : Config) (hp : cfg.max_pages ≤ 0) (s : State) (ev : Event)
    (h : never_ends s) : never_ends (step cfg s ev) := by
  obtain ⟨hf, hm, hc⟩ := h
  cases ev with
  | main =>
    simp only [step]
    split
    · exact ⟨hf, hm, hc⟩
    · split
      · rename_i hall
        have := all_stopped_not_in_loop s.workers hall
        omega
      · exact ⟨hf, hm, hc⟩
  | worker i env =>
    simp only [step]
    split
    · exact ⟨hf, hm, hc⟩
    · rename_i w hget
      split
      · exact ⟨hf, hm, hc⟩
      · rename_i w' s' hstep
        obtain ⟨hf', hm', hl⟩ := wstep_in_loop hstep hp hf
        have hws := wstep_workers hstep
        have hset := countP_set_worker Worker.in_loop s.workers i w w' hget
        refine ⟨hf', hm'.trans hm, ?_⟩
        simp only [hws]
        cases hw : w.in_loop
        · cases hw' : w'.in_loop
          · simp [hw, hw'] at hset
            omega
          · simp [hw, hw'] at hset
            omega
        · have hw' := hl hw
          simp [hw, hw'] at hset
          omega

/-- Without a page budget a crawl never ends once a worker has entered its loop: whatever
happens next, `finished_` stays unset, `main` stays in its joins and a worker stays in
its loop. -/
theorem unbounded_never_terminates (cfg : Config) (hp : cfg.max_pages ≤ 0) (s : State)
    (h : never_ends s) (evs : List Event) : never_ends (evs.foldl (step cfg) s) := by
  induction evs generalizing s with
  | nil => exact h
  | cons e l ih => exact ih _ (step_never_ends cfg hp s e h)


/-- With at least one worker and no page budget, every run in which worker 0 gets its
curl handle first goes on for ever: `main` never gets past its joins, so `notify_finish`
is never called and no result is written. -/
theorem unbounded_crawl_hangs (cfg : Config) (hN : 1 ≤ cfg.threads) (hp : cfg.max_pages ≤ 0)
    (evs : List Event) :
    (exec cfg (wk 0 none :: evs)).main = MainState.joining ∧
    (exec cfg (wk 0 none :: evs)).queue.finished_ = false := by
  have hstart : never_ends (step cfg (init cfg) (wk 0 none)) := by
    obtain ⟨n, hn⟩ : ∃ n, cfg.threads.toNat = n + 1 := ⟨cfg.threads.toNat - 1, by omega⟩
    simp only [step, wk, init, State.push, hn, List.replicate_succ, List.get?_cons_zero, wstep,
      if_true, List.set_cons_zero]
    refine ⟨rfl, rfl, ?_⟩
    simp [List.countP_cons, Worker.in_loop]
  have h := unbounded_never_terminates cfg hp _ hstart evs
  exact ⟨h.2.1, h.1⟩

end Crawler
